import Mathlib

/-!
# Verification of `skfem.element.element_global.ElementGlobal`

A shallow embedding of `src/skfem/element/element_global.py`.

Modelling conventions:

* Machine floats are idealised as an arbitrary `Field K`; the concrete claims
  are instantiated at `ℚ` (for executable witnesses) and at `ℝ` (for the
  geometric claims that involve `np.linalg.norm`, i.e. a square root).
* `np.linalg.norm(-, axis=0)` is `sqrt (a^2 + b^2)`, where `sqrt` is an
  explicit parameter instantiated with `Real.sqrt` over `ℝ`.
* numpy integer indexing is modelled by `npIdx`/`npGet`/`npGets`:
  a negative index `i` with `-len ≤ i < 0` silently wraps to `len + i`,
  anything further out of range raises `IndexError`.
* Python exceptions are modelled by `Except String`; the string records which
  exception the Python code would raise.
* Dynamically `eval`-ed lambda strings of `_pbasis_create` are modelled by the
  first-order syntax `PFun` (the captured integer constant and the exponents)
  together with evaluation functions.
-/

deriving instance DecidableEq for Except

namespace Skfem

/-- A power basis function produced by `ElementGlobal._pbasis_create`.
The three constructors correspond to the three arity branches of the Python
code (`lambda x: ...`, `lambda x, y: ...`, `lambda x, y, z: ...`); the
constant is the Python integer computed from the falling-factorial loops. -/
inductive PBFun where
  | one (c : ℤ) (ex : ℕ)
  | two (c : ℤ) (ex ey : ℕ)
  | three (c : ℤ) (ex ey ez : ℕ)
deriving DecidableEq, Repr

/-- Number of arguments the generated lambda takes. -/
def PBFun.arity : PBFun → ℕ
  | .one _ _ => 1
  | .two _ _ _ => 2
  | .three _ _ _ _ => 3

/-- The falling-factorial constant of `_pbasis_create`:
`cx = 1; for l in np.arange(d, 0, -1): cx *= i - d + l`,
i.e. the product of `i - d + l` for `l = d, d-1, ..., 1`. -/
def fallingProd (i : ℕ) (d : ℕ) : ℤ :=
  ((List.range d).map (fun l : ℕ => (i : ℤ) - (d : ℤ) + ((l : ℤ) + 1))).prod

/-- Model of `ElementGlobal._pbasis_create(i, j, k, dx, dy, dz)`.
`j`/`k` are the optional second and third exponents (Python default `None`).
The exponent `np.max([i - dx, 0])` is truncated subtraction on `ℕ`.
The combination `j = none, k = some _` raises `TypeError` in Python and is
never produced by `_pbasis_init`; it is mapped to an arbitrary value here. -/
def pbasis_create (i : ℕ) (j : Option ℕ) (k : Option ℕ)
    (dx dy dz : ℕ) : PBFun :=
  match j, k with
  | none, none => .one (fallingProd i dx) (i - dx)
  | some jv, none =>
      .two (fallingProd i dx * fallingProd jv dy) (i - dx) (jv - dy)
  | some jv, some kv =>
      .three (fallingProd i dx * fallingProd jv dy * fallingProd kv dz)
        (i - dx) (jv - dy) (kv - dz)
  | none, some kv =>
      .three 0 (i - dx) 0 (kv - dz)

section Eval

variable {K : Type} [Field K]

/-- Arity-checked evaluation of a generated lambda: applying it to the wrong
number of arguments is Python `TypeError` (`none`). -/
def PBFun.evalA : PBFun → List K → Option K
  | .one c ex, [x] => some ((c : K) * x ^ ex)
  | .two c ex ey, [x, y] => some ((c : K) * x ^ ex * y ^ ey)
  | .three c ex ey ez, [x, y, z] =>
      some ((c : K) * x ^ ex * y ^ ey * z ^ ez)
  | _, _ => none

/-- Total evaluation, used after the arity of the whole table has been
checked once (every function `_pbasis_init` generates takes two arguments). -/
def peval : PBFun → List K → K
  | .one c ex, args => (c : K) * (args.getD 0 0) ^ ex
  | .two c ex ey, args => (c : K) * (args.getD 0 0) ^ ex * (args.getD 1 0) ^ ey
  | .three c ex ey ez, args =>
      (c : K) * (args.getD 0 0) ^ ex * (args.getD 1 0) ^ ey
        * (args.getD 2 0) ^ ez

end Eval

/-- The monomial exponent pairs enumerated by `_pbasis_init`:
`[(i, j) for i in range(maxdeg+1) for j in range(maxdeg+1) if i+j <= maxdeg]`
in exactly that (outer `i`, inner `j`) order. -/
def monoPairs (maxdeg : ℕ) : List (ℕ × ℕ) :=
  (List.range (maxdeg + 1)).flatMap fun i =>
    ((List.range (maxdeg + 1)).filter (fun j => i + j ≤ maxdeg)).map
      fun j => (i, j)

/-- All length-`k` tuples of axis indices `< dim`, in the order produced by
`itertools.product(*((list(range(dim)),) * k))` (leftmost slot slowest). -/
def axisTuples (dim : ℕ) : ℕ → List (List ℕ)
  | 0 => [[]]
  | k + 1 =>
      (List.range dim).flatMap fun a =>
        (axisTuples dim k).map fun t => a :: t

/-- The derivative keys of orders `0 .. Ndiff`, in insertion order of the
`self._pbasis` dict. -/
def derivKeys (dim Ndiff : ℕ) : List (List ℕ) :=
  (List.range (Ndiff + 1)).flatMap fun k => axisTuples dim k

/-- The list of functions stored under one derivative key `diff`.
Note the Python source: `dx = sum([1 for d in diff if d==0])`,
`dy = sum([1 for d in diff if d==1])`, and the call
`self._pbasis_create(i=i, j=j, dx=dx, dy=dy)` — `k` and `dz` are never
passed, so every entry is produced by the two-argument branch. -/
def pbasisFns (maxdeg : ℕ) (diff : List ℕ) : List PBFun :=
  (monoPairs maxdeg).map fun ij =>
    pbasis_create ij.1 (some ij.2) none (diff.count 0) (diff.count 1) 0

/-- The dict `self._pbasis` built by `ElementGlobal._pbasis_init`. -/
def pbasis_init (maxdeg dim Ndiff : ℕ) : List (List ℕ × List PBFun) :=
  (derivKeys dim Ndiff).map fun diff => (diff, pbasisFns maxdeg diff)

/-! ## numpy integer indexing -/

/-- Resolve a (possibly negative) Python/numpy index against length `n`:
wrap once for `-n ≤ i < 0`, reject anything else out of `[0, n)`. -/
def npIdx (n : ℕ) (i : ℤ) : Option ℕ :=
  if 0 ≤ i ∧ i < (n : ℤ) then some i.toNat
  else if -(n : ℤ) ≤ i ∧ i < 0 then some (i + (n : ℤ)).toNat
  else none

/-- numpy element lookup with negative-index wrapping. -/
def npGet {α : Type} (l : List α) (i : ℤ) : Option α :=
  (npIdx l.length i).bind fun j => l.get? j

/-- numpy fancy indexing `arr[tind]`: every index must resolve, otherwise
`IndexError`. -/
def npGets {α : Type} (l : List α) : List ℤ → Option (List α)
  | [] => some []
  | t :: ts =>
    match npGet l t, npGets l ts with
    | some v, some vs => some (v :: vs)
    | _, _ => none

/-! ## Mesh and the geometric features of `_eval_dofs` -/

/-- The mesh collaborator: `p` has shape (2, numVertices) (rows are the two
coordinate axes), `t` has shape (nodesPerElement, numElements) (rows are the
local vertex slots). -/
structure Mesh (K : Type) where
  p : List (List K)
  t : List (List ℕ)
deriving DecidableEq

/-- The element count `mesh.t.shape[1]`. -/
def Mesh.nElems {K : Type} (m : Mesh K) : ℕ := (m.t.getD 0 []).length

section Geometry

variable {K : Type} [Field K]

/-- Vertex feature `v[itr, a, e] = mesh.p[a, mesh.t[itr, e]]`
(component `a` of local vertex `itr` of element `e`). -/
def vfeat (m : Mesh K) (itr a e : ℕ) : K :=
  (m.p.getD a []).getD ((m.t.getD itr []).getD e 0) 0

/-- Edge midpoints: `e[0] = (v0+v1)/2`, `e[1] = (v1+v2)/2`, `e[2] = (v0+v2)/2`. -/
def efeat (m : Mesh K) (itr a e : ℕ) : K :=
  match itr with
  | 0 => (vfeat m 0 a e + vfeat m 1 a e) / 2
  | 1 => (vfeat m 1 a e + vfeat m 2 a e) / 2
  | _ => (vfeat m 0 a e + vfeat m 2 a e) / 2

/-- The edge direction vectors before rotation:
`n[0] = v0 - v1`, `n[1] = v1 - v2`, `n[2] = v0 - v2`. -/
def rawn (m : Mesh K) (itr a e : ℕ) : K :=
  match itr with
  | 0 => vfeat m 0 a e - vfeat m 1 a e
  | 1 => vfeat m 1 a e - vfeat m 2 a e
  | _ => vfeat m 0 a e - vfeat m 2 a e

/-- The 90-degree rotation `n[itr] = np.array([n[itr, 1, :], -n[itr, 0, :]])`. -/
def rotn (m : Mesh K) (itr a e : ℕ) : K :=
  if a = 0 then rawn m itr 1 e else -(rawn m itr 0 e)

/-- The normalised normal `n[itr] /= np.linalg.norm(n[itr], axis=0)`;
`sqrt` is the square-root implementation (`Real.sqrt` over `ℝ`). -/
def nfeat (sqrt : K → K) (m : Mesh K) (itr a e : ℕ) : K :=
  rotn m itr a e / sqrt (rotn m itr 0 e ^ 2 + rotn m itr 1 e ^ 2)

/-- Pack an elementwise feature into the `(3, 2, len(tind))` array handed to
`gdof`. -/
def featArr (f : ℕ → ℕ → ℕ → K) (tind : List ℕ) : List (List (List K)) :=
  (List.range 3).map fun itr =>
    (List.range 2).map fun a => tind.map fun el => f itr a el

end Geometry

/-! ## `_eval_dofs` and the DOF functional -/

/-- The pluggable `gdof` callback of a concrete element subclass: it receives
the dict `U = {key: pbasis[key][itr]}`, the three geometric feature arrays and
the DOF index `jtr`, and returns one scalar per element. -/
def GDof (K : Type) : Type :=
  List (List ℕ × PBFun) → List (List (List K)) → List (List (List K)) →
    List (List (List K)) → ℕ → List K

/-- The dict `U = {k: self._pbasis[k][itr] for k in self._pbasis}`. -/
def Urow (tb : List (List ℕ × List PBFun)) (itr : ℕ) : List (List ℕ × PBFun) :=
  tb.map fun kv => (kv.1, kv.2.getD itr (.two 0 0 0))

section EvalDofs

variable {K : Type} [Field K]

/-- The count `N = len(self._pbasis[()])` of power basis functions. -/
def Ntb (tb : List (List ℕ × List PBFun)) : ℕ :=
  ((tb.lookup ([] : List ℕ)).getD []).length

/-- One row of the Vandermonde fill: the scalars
`gdof(U_itr, v, e, n, jtr)` for element position `el` of `tind`. -/
def vandermonde (tb : List (List ℕ × List PBFun)) (gdof : GDof K)
    (sqrt : K → K) (m : Mesh K) (tind : List ℕ) (el jtr itr : ℕ) : K :=
  (gdof (Urow tb itr) (featArr (vfeat m) tind) (featArr (efeat m) tind)
    (featArr (nfeat sqrt m) tind) jtr).getD el 0

/-- Model of `ElementGlobal._eval_dofs(mesh, tind)`: checks the 3-node-triangle
topology, builds the geometric features and fills the generalized Vandermonde
matrix `V[:, jtr, itr] = gdof(U_itr, v, e, n, jtr)`.  The result is indexed
element-major: `V[el][jtr][itr]`. -/
def eval_dofs (tb : List (List ℕ × List PBFun)) (gdof : GDof K) (sqrt : K → K)
    (m : Mesh K) (tindOpt : Option (List ℕ)) :
    Except String (List (List (List K))) :=
  if m.t.length = 3 then
    .ok ((List.range (tindOpt.getD (List.range m.nElems)).length).map fun el =>
      (List.range (Ntb tb)).map fun jtr =>
        (List.range (Ntb tb)).map fun itr =>
          vandermonde tb gdof sqrt m (tindOpt.getD (List.range m.nElems))
            el jtr itr)
  else .error "NotImplementedError: The used mesh type not supported in ElementH2."

end EvalDofs

/-! ## `np.linalg.inv`, modelled as the adjugate inverse per slice -/

section Inverse

variable {K : Type} [Field K]

/-- Delete row `r` and column `c`. -/
def minorMat (M : List (List K)) (r c : ℕ) : List (List K) :=
  (M.eraseIdx r).map fun row => row.eraseIdx c

/-- Determinant by first-row cofactor expansion; the first argument is the
size of the matrix. -/
def detL : ℕ → List (List K) → K
  | 0, _ => 1
  | n + 1, M =>
      ((List.range (n + 1)).map fun c =>
        (-1 : K) ^ c * ((M.getD 0 []).getD c 0) * detL n (minorMat M 0 c)).sum

/-- The inverse of one `N x N` slice, `inv M = adjugate M / det M`
(the mathematical content of `np.linalg.inv`). -/
def invL (M : List (List K)) : List (List K) :=
  (List.range M.length).map fun r =>
    (List.range M.length).map fun c =>
      (-1 : K) ^ (r + c) * detL (M.length - 1) (minorMat M c r)
        / detL M.length M

end Inverse

/-! ## The element state and `gbasis` -/

/-- The mutable per-instance state of an `ElementGlobal` subclass:
the configuration attributes `maxdeg`, `dim`, `derivatives`, the lazily
created dict `_pbasis` and the cached batched inverse `V`. -/
structure ElemState (K : Type) where
  maxdeg : ℕ
  dim : ℕ
  derivatives : ℕ
  pbasis : Option (List (List ℕ × List PBFun))
  V : Option (List (List (List K)))
deriving DecidableEq

/-- The result bundle of one basis function: tensors of each derivative order
are association lists from the derivative key (a tuple in `(dim,)*k`) to the
`x[0].shape` array of accumulated values. -/
structure DiscreteField (K : Type) where
  value : List (List K)
  grad : List (List ℕ × List (List K))
  hess : List (List ℕ × List (List K))
  hod : List (List (List ℕ × List (List K)))
deriving DecidableEq

section Gbasis

variable {K : Type} [Field K]

/-- The physical coordinates of the evaluation points for entry `(s, q)`:
`[x[0][s][q], x[1][s][q], ...]` — the arguments of `f(*x)` after numpy
broadcasting is resolved pointwise. -/
def coords (x : List (List (List K))) (s q : ℕ) : List K :=
  x.map fun comp => (comp.getD s []).getD q 0

/-- An all-zero array of the shape of `x[0]`
(`np.zeros((self.dim,) * k + x[0].shape)`, one derivative key at a time). -/
def zerosT (x0 : List (List K)) : List (List K) :=
  x0.map fun row => row.map fun _ => (0 : K)

/-- Elementwise `A += B` on rectangular arrays. -/
def addT (A B : List (List K)) : List (List K) :=
  (List.range A.length).map fun s =>
    (List.range ((A.getD s []).length)).map fun q =>
      (A.getD s []).getD q 0 + (B.getD s []).getD q 0

/-- One loop increment `V[:, itr, i][:, None] * self._pbasis[diff][itr](*x)`:
entry `(s, q)` is the cached coefficient of element `s` times the power basis
derivative at the physical point `(s, q)`. -/
def incT (Vsel x : List (List (List K))) (f : PBFun) (itr iRes : ℕ) :
    List (List K) :=
  (List.range (x.getD 0 []).length).map fun s =>
    (List.range ((x.getD 0 []).getD s []).length).map fun q =>
      ((Vsel.getD s []).getD itr []).getD iRes 0 * peval f (coords x s q)

/-- The accumulation loop `for itr in range(N): U[k][diff] += ...`. -/
def Utensor (Vsel x : List (List (List K))) (fs : List PBFun)
    (N iRes : ℕ) : List (List K) :=
  (List.range N).foldl
    (fun acc itr => addT acc (incT Vsel x (fs.getD itr (.two 0 0 0)) itr iRes))
    (zerosT (x.getD 0 []))

/-- One derivative order of the output: the `(dim,)*k` tensor as an
association list over the derivative keys. -/
def mkU (tb : List (List ℕ × List PBFun)) (Vsel x : List (List (List K)))
    (N iRes dim k : ℕ) : List (List ℕ × List (List K)) :=
  (axisTuples dim k).map fun diff =>
    (diff, Utensor Vsel x ((tb.lookup diff).getD []) N iRes)

/-- Packing of `U[0] / U[1] / U[2]` and the higher orders `hod[k] = U[k+3]`. -/
def mkDF (tb : List (List ℕ × List PBFun)) (Vsel x : List (List (List K)))
    (N iRes dim derivs : ℕ) : DiscreteField K :=
  { value := Utensor Vsel x ((tb.lookup ([] : List ℕ)).getD []) N iRes
    grad := mkU tb Vsel x N iRes dim 1
    hess := mkU tb Vsel x N iRes dim 2
    hod := (List.range (derivs - 2)).map fun kk => mkU tb Vsel x N iRes dim (kk + 3) }

/-- The evaluation part of `gbasis` (source lines 25-52), after the cache is
available: select `V = self.V[tind]`, map the points, run the accumulation
loops and pack the `DiscreteField`.  Failure cases, in Python evaluation
order: fancy indexing `self.V[tind]` (`IndexError`), `x[0]` on an empty
coordinate array (`IndexError`), the missing `_pbasis` attribute
(`AttributeError`), the column selection `V[:, itr, i]` (`IndexError`,
reached whenever `N > 0`), the call `f(*x)` with an argument count other
than two (`TypeError`, every generated lambda is binary), and
`np.empty((self.derivatives - 2,))` with `derivatives < 2` (`ValueError`). -/
def gbasisCore (F : List ℤ → List (List (List K))) (tind : List ℤ) (i : ℤ)
    (tbOpt : Option (List (List ℕ × List PBFun))) (W : List (List (List K)))
    (dim derivs : ℕ) : Except String (List (DiscreteField K)) :=
  match npGets W tind with
  | none => .error "IndexError: fancy index tind out of bounds"
  | some Vsel =>
    if (F tind).length = 0 then
      .error "IndexError: x[0] on empty coordinate array"
    else
      match tbOpt with
      | none => .error "AttributeError: no attribute _pbasis"
      | some tb =>
        if 0 < Ntb tb then
          match npIdx (Ntb tb) i with
          | none => .error "IndexError: basis index i out of bounds"
          | some iRes =>
            if (F tind).length ≠ 2 then
              .error "TypeError: wrong number of arguments in pbasis call"
            else if derivs < 2 then
              .error "ValueError: negative dimensions are not allowed"
            else .ok [mkDF tb Vsel (F tind) (Ntb tb) iRes dim derivs]
        else
          if derivs < 2 then
            .error "ValueError: negative dimensions are not allowed"
          else
            .ok [mkDF tb Vsel (F tind) (Ntb tb) ((npIdx (Ntb tb) i).getD 0)
              dim derivs]

/-- Model of `ElementGlobal.gbasis(mapping, X, i, tind)`.  `F` stands for the opaque
collaborator call `mapping.F(X, tind=tind)` (the evaluation points `X` are
captured inside `F`), `m` for `mapping.mesh`.  On the first call
(`self.V is None`) the power basis dict is created, the Vandermonde matrix is
built over all mesh elements and its batched inverse is stored in the state. -/
def gbasis (gdof : GDof K) (sqrt : K → K) (F : List ℤ → List (List (List K)))
    (m : Mesh K) (i : ℤ) (tindOpt : Option (List ℤ)) (st : ElemState K) :
    Except String (List (DiscreteField K) × ElemState K) :=
  match st.V with
  | none =>
    match eval_dofs (pbasis_init st.maxdeg st.dim st.derivatives) gdof sqrt
        m none with
    | .error e => .error e
    | .ok Vd =>
      (gbasisCore F (tindOpt.getD ((List.range m.nElems).map Int.ofNat)) i
          (some (pbasis_init st.maxdeg st.dim st.derivatives)) (Vd.map invL)
          st.dim st.derivatives).map
        fun res =>
          (res, { st with pbasis := some (pbasis_init st.maxdeg st.dim
                            st.derivatives),
                          V := some (Vd.map invL) })
  | some W =>
    (gbasisCore F (tindOpt.getD ((List.range m.nElems).map Int.ofNat)) i
        st.pbasis W st.dim st.derivatives).map
      fun res => (res, st)

end Gbasis

/-! ## Concrete fixtures used by the executable checks -/

/-- The unit right triangle `(0,0), (1,0), (0,1)` as a one-element mesh. -/
def triMesh : Mesh ℚ := ⟨[[0, 1, 0], [0, 0, 1]], [[0], [1], [2]]⟩

/-- A one-element mesh with 4-node connectivity (a quadrilateral). -/
def quadMesh : Mesh ℚ := ⟨[[0, 1, 1, 0], [0, 0, 1, 1]], [[0], [1], [2], [3]]⟩

/-- A degree-of-freedom functional that is constantly `1` on the single
element (any pure callback is admissible for `gdof`). -/
def gdofConst : GDof ℚ := fun _ _ _ _ _ => [1]

/-- A mapping collaborator sending everything to the origin:
one selected element, one evaluation point. -/
def Fzero : List ℤ → List (List (List ℚ)) := fun _ => [[[0]], [[0]]]

/-- A fresh element state: `maxdeg = 0`, `dim = 2`, `derivatives = 2`,
nothing cached. -/
def stFresh : ElemState ℚ := ⟨0, 2, 2, none, none⟩

/-- The state after the first `gbasis` call on `triMesh`: the power basis
dict for `(0, 2, 2)` and the cached inverse `[[[1]]]`. -/
def stWarm : ElemState ℚ :=
  ⟨0, 2, 2, some (pbasis_init 0 2 2), some [[[1]]]⟩

/-- The field bundle returned for the constant basis function of `stWarm`. -/
def dfConst : DiscreteField ℚ :=
  { value := [[1]]
    grad := [([0], [[0]]), ([1], [[0]])]
    hess := [([0, 0], [[0]]), ([0, 1], [[0]]), ([1, 0], [[0]]), ([1, 1], [[0]])]
    hod := [] }

/-- The unit right triangle again, with real coordinates, for the geometric
claims that involve the Euclidean norm. -/
def triMeshR : Mesh ℝ := ⟨[[0, 1, 0], [0, 0, 1]], [[0], [1], [2]]⟩

/-- Shape agreement with the template `x[0]`. -/
def ShapeOf {K : Type} [Field K] (A x0 : List (List K)) : Prop :=
  A.length = x0.length ∧ ∀ s, (A.getD s []).length = (x0.getD s []).length

/-! ## Toolbox lemmas -/

theorem lookup_map_pair {β : Type} (g : List ℕ → β) (l : List (List ℕ))
    (x : List ℕ) :
    (l.map (fun a => (a, g a))).lookup x =
      if x ∈ l then some (g x) else none := by
  induction l with
  | nil => simp
  | cons a l ih =>
    by_cases h : x = a
    · subst h; simp [List.lookup_cons]
    · have hb : (x == a) = false := beq_false_of_ne h
      simp [List.lookup_cons, hb, ih, h]

theorem mem_axisTuples {dim k : ℕ} {l : List ℕ} :
    l ∈ axisTuples dim k ↔ l.length = k ∧ ∀ x ∈ l, x < dim := by
  induction k generalizing l with
  | zero =>
    simp only [axisTuples, List.mem_singleton]
    constructor
    · rintro rfl; simp
    · rintro ⟨h, -⟩; exact List.length_eq_zero.mp h
  | succ k ih =>
    simp only [axisTuples, List.mem_flatMap, List.mem_map, List.mem_range]
    constructor
    · rintro ⟨a, ha, t, ht, rfl⟩
      obtain ⟨hlen, hmem⟩ := ih.mp ht
      refine ⟨by simp [hlen], ?_⟩
      intro x hx
      rcases List.mem_cons.mp hx with rfl | hx
      · exact ha
      · exact hmem x hx
    · rintro ⟨hlen, hmem⟩
      cases l with
      | nil => simp at hlen
      | cons a t =>
        refine ⟨a, hmem a (by simp), t, ih.mpr ⟨by simpa using hlen, ?_⟩, rfl⟩
        intro x hx; exact hmem x (List.mem_cons_of_mem a hx)

theorem mem_derivKeys {dim Ndiff : ℕ} {diff : List ℕ} :
    diff ∈ derivKeys dim Ndiff ↔
      diff.length ≤ Ndiff ∧ ∀ x ∈ diff, x < dim := by
  simp only [derivKeys, List.mem_flatMap, List.mem_range]
  constructor
  · rintro ⟨k, hk, hmem⟩
    obtain ⟨hlen, hx⟩ := mem_axisTuples.mp hmem
    exact ⟨by omega, hx⟩
  · rintro ⟨hlen, hx⟩
    exact ⟨diff.length, by omega, mem_axisTuples.mpr ⟨rfl, hx⟩⟩

theorem pbasis_lookup (maxdeg dim Ndiff : ℕ) (diff : List ℕ) :
    (pbasis_init maxdeg dim Ndiff).lookup diff =
      if diff ∈ derivKeys dim Ndiff then some (pbasisFns maxdeg diff)
      else none :=
  lookup_map_pair (pbasisFns maxdeg) (derivKeys dim Ndiff) diff

theorem fallingProd_eq_zero {i d : ℕ} (h : i < d) : fallingProd i d = 0 := by
  unfold fallingProd
  have hr : d - i - 1 ∈ List.range d := List.mem_range.mpr (by omega)
  have hm : ((i : ℤ) - (d : ℤ) + (((d - i - 1 : ℕ) : ℤ) + 1)) ∈
      (List.range d).map (fun l : ℕ => (i : ℤ) - (d : ℤ) + ((l : ℤ) + 1)) :=
    List.mem_map_of_mem (fun l : ℕ => (i : ℤ) - (d : ℤ) + ((l : ℤ) + 1)) hr
  have hz : (i : ℤ) - (d : ℤ) + (((d - i - 1 : ℕ) : ℤ) + 1) = 0 := by omega
  exact List.prod_eq_zero (hz ▸ hm)

theorem length_filter_range (i n m : ℕ) :
    (((List.range m).filter (fun j => i + j ≤ n)).length) =
      min m (n + 1 - i) := by
  induction m with
  | zero => simp
  | succ m ih =>
    rw [List.range_succ, List.filter_append, List.length_append, ih]
    by_cases h : i + m ≤ n <;> simp [h] <;> omega

theorem list_sum_range_eq {M : Type} [AddCommMonoid M] (f : ℕ → M) (n : ℕ) :
    ((List.range n).map f).sum = ∑ i ∈ Finset.range n, f i := by
  induction n with
  | zero => simp
  | succ n ih =>
    rw [List.range_succ, List.map_append, List.sum_append,
      Finset.sum_range_succ, ih]
    simp

theorem sum_range_sub_mul_two (n : ℕ) :
    ∑ i ∈ Finset.range (n + 1), 2 * (n + 1 - i) = (n + 1) * (n + 2) := by
  induction n with
  | zero => simp
  | succ n ih =>
    rw [Finset.sum_range_succ]
    have step : ∀ i ∈ Finset.range (n + 1),
        2 * (n + 1 + 1 - i) = 2 * (n + 1 - i) + 2 := by
      intro i hi
      have : i < n + 1 := Finset.mem_range.mp hi
      omega
    rw [Finset.sum_congr rfl step, Finset.sum_add_distrib, ih,
      Finset.sum_const, Finset.card_range, smul_eq_mul]
    ring_nf
    omega

theorem length_monoPairs (n : ℕ) :
    2 * (monoPairs n).length = (n + 1) * (n + 2) := by
  have hlen : (monoPairs n).length =
      ∑ i ∈ Finset.range (n + 1), (n + 1 - i) := by
    rw [monoPairs, List.length_flatMap, list_sum_range_eq]
    refine Finset.sum_congr rfl fun i hi => ?_
    simp only [Function.comp]
    rw [List.length_map, length_filter_range]
    have : i < n + 1 := Finset.mem_range.mp hi
    omega
  rw [hlen, Finset.mul_sum]
  exact sum_range_sub_mul_two n

theorem length_pbasisFns (maxdeg : ℕ) (diff : List ℕ) :
    2 * (pbasisFns maxdeg diff).length = (maxdeg + 1) * (maxdeg + 2) := by
  rw [pbasisFns, List.length_map]
  exact length_monoPairs maxdeg

theorem getD_map_range {α : Type} (f : ℕ → α) {n e : ℕ} (d : α)
    (h : e < n) : ((List.range n).map f).getD e d = f e := by
  rw [List.getD_eq_getElem?_getD, List.getElem?_map, List.getElem?_range h]
  rfl

theorem npIdx_lt {n : ℕ} {i : ℤ} {j : ℕ} (h : npIdx n i = some j) :
    j < n := by
  rw [npIdx] at h
  split at h
  · cases h; omega
  · split at h
    · cases h; omega
    · cases h

theorem npGets_ok {α : Type} (l : List α) (ts : List ℤ) (vs : List α)
    (h : npGets l ts = some vs) :
    vs.length = ts.length ∧
      ∀ p < ts.length, ∃ j, npIdx l.length (ts.getD p 0) = some j ∧
        vs[p]? = l[j]? := by
  induction ts generalizing vs with
  | nil =>
    simp [npGets] at h
    subst h
    exact ⟨rfl, fun p hp => absurd hp (by simp)⟩
  | cons t ts ih =>
    rw [npGets] at h
    cases hg : npGet l t with
    | none => rw [hg] at h; cases h
    | some v =>
      rw [hg] at h
      cases hgs : npGets l ts with
      | none => rw [hgs] at h; cases h
      | some ws =>
        rw [hgs] at h
        cases h
        obtain ⟨hlen, hentry⟩ := ih ws hgs
        refine ⟨by simp [hlen], ?_⟩
        intro p hp
        cases p with
        | zero =>
          obtain ⟨j, hj, hjget⟩ : ∃ j, npIdx l.length t = some j ∧
              l[j]? = some v := by
            rw [npGet] at hg
            cases hnp : npIdx l.length t with
            | none => rw [hnp] at hg; cases hg
            | some j =>
              rw [hnp] at hg
              simp only [Option.some_bind] at hg
              exact ⟨j, rfl, by rw [← List.get?_eq_getElem?]; exact hg⟩
          exact ⟨j, by simpa using hj, by simp [hjget]⟩
        | succ p =>
          obtain ⟨j, hj, hjget⟩ := hentry p (by simpa using hp)
          exact ⟨j, by simpa using hj, by simpa using hjget⟩

theorem npGets_all_valid {α : Type} (l : List α) (ts : List ℤ)
    (h : ∀ t ∈ ts, npIdx l.length t ≠ none) :
    ∃ vs, npGets l ts = some vs := by
  induction ts with
  | nil => exact ⟨[], rfl⟩
  | cons t ts ih =>
    obtain ⟨vs, hvs⟩ := ih fun u hu => h u (List.mem_cons_of_mem _ hu)
    cases hnp : npIdx l.length t with
    | none => exact absurd hnp (h t (List.mem_cons_self t ts))
    | some j =>
      have hj : j < l.length := npIdx_lt hnp
      refine ⟨l.get ⟨j, hj⟩ :: vs, ?_⟩
      rw [npGets, npGet, hnp]
      simp only [Option.some_bind]
      rw [List.get?_eq_get hj, hvs]

theorem npGets_mem_invalid {α : Type} (l : List α) (ts : List ℤ) (t : ℤ)
    (hmem : t ∈ ts) (h : npIdx l.length t = none) :
    npGets l ts = none := by
  induction ts with
  | nil => cases hmem
  | cons u ts ih =>
    rw [npGets]
    rcases List.mem_cons.mp hmem with rfl | hmem
    · rw [npGet, h]
      simp
    · rw [ih hmem]
      cases npGet l u <;> rfl

/-! ## The accumulation loop is the expected linear combination -/

theorem getD_lt {α : Type} (l : List α) (d : α) {s : ℕ} (h : s < l.length) :
    l.getD s d = l[s] := by
  rw [List.getD_eq_getElem?_getD, List.getElem?_eq_getElem h]
  rfl

theorem getD_ge {α : Type} (l : List α) (d : α) {s : ℕ} (h : l.length ≤ s) :
    l.getD s d = d :=
  List.getD_eq_default _ _ h

theorem getD_map_lt {α β : Type} (f : α → β) (l : List α) (d : β) {s : ℕ}
    (h : s < l.length) : (l.map f).getD s d = f l[s] := by
  rw [List.getD_eq_getElem?_getD, List.getElem?_map, List.getElem?_eq_getElem h]
  rfl

theorem getD_map_ge {α β : Type} (f : α → β) (l : List α) (d : β) {s : ℕ}
    (h : l.length ≤ s) : (l.map f).getD s d = d := by
  apply List.getD_eq_default
  simpa using h

theorem getD_map_range_ge {α : Type} (f : ℕ → α) {n e : ℕ} (d : α)
    (h : n ≤ e) : ((List.range n).map f).getD e d = d := by
  apply List.getD_eq_default
  simpa using h

section TensorLemmas

variable {K : Type} [Field K]

theorem shapeOf_zerosT (x0 : List (List K)) : ShapeOf (zerosT x0) x0 := by
  refine ⟨by simp [zerosT], fun s => ?_⟩
  by_cases hs : s < x0.length
  · rw [zerosT, getD_map_lt _ _ _ hs, getD_lt _ _ hs]
    simp
  · rw [zerosT, getD_map_ge _ _ _ (by omega), getD_ge _ _ (by omega)]

theorem zerosT_entry (x0 : List (List K)) (s q : ℕ) :
    ((zerosT x0).getD s []).getD q 0 = 0 := by
  by_cases hs : s < x0.length
  · rw [zerosT, getD_map_lt _ _ _ hs]
    by_cases hq : q < (x0[s]).length
    · rw [getD_map_lt _ _ _ hq]
    · rw [getD_map_ge _ _ _ (by omega)]
  · rw [zerosT, getD_map_ge _ _ _ (by omega)]
    rfl

theorem shapeOf_addT (A B x0 : List (List K)) (h : ShapeOf A x0) :
    ShapeOf (addT A B) x0 := by
  obtain ⟨h1, h2⟩ := h
  refine ⟨by simp [addT, h1], fun s => ?_⟩
  by_cases hs : s < A.length
  · rw [addT, getD_map_range _ _ hs, List.length_map, List.length_range, h2]
  · rw [addT, getD_map_range_ge _ _ (by omega), ← h2 s, getD_ge _ _ (by omega)]

theorem addT_entry (A B x0 : List (List K)) (h : ShapeOf A x0) (s q : ℕ)
    (hs : s < x0.length) (hq : q < (x0.getD s []).length) :
    ((addT A B).getD s []).getD q 0 =
      (A.getD s []).getD q 0 + (B.getD s []).getD q 0 := by
  obtain ⟨h1, h2⟩ := h
  have hs2 : s < A.length := by omega
  have hq2 : q < (A.getD s []).length := by rw [h2]; exact hq
  rw [addT, getD_map_range _ _ hs2, getD_map_range _ _ hq2]

theorem shapeOf_incT (Vsel x : List (List (List K))) (f : PBFun)
    (itr iRes : ℕ) : ShapeOf (incT Vsel x f itr iRes) (x.getD 0 []) := by
  refine ⟨by simp [incT], fun s => ?_⟩
  by_cases hs : s < (x.getD 0 []).length
  · rw [incT, getD_map_range _ _ hs, List.length_map, List.length_range]
  · rw [incT, getD_map_range_ge _ _ (by omega), getD_ge _ _ (by omega)]

theorem incT_entry (Vsel x : List (List (List K))) (f : PBFun)
    (itr iRes s q : ℕ) (hs : s < (x.getD 0 []).length)
    (hq : q < ((x.getD 0 []).getD s []).length) :
    ((incT Vsel x f itr iRes).getD s []).getD q 0 =
      ((Vsel.getD s []).getD itr []).getD iRes 0 * peval f (coords x s q) := by
  rw [incT, getD_map_range _ _ hs, getD_map_range _ _ hq]

theorem foldl_addT_entry (Vsel x : List (List (List K)))
    (fs : List PBFun) (iRes : ℕ) (l : List ℕ) (A : List (List K))
    (hA : ShapeOf A (x.getD 0 [])) (s q : ℕ)
    (hs : s < (x.getD 0 []).length)
    (hq : q < ((x.getD 0 []).getD s []).length) :
    ((l.foldl
        (fun acc itr => addT acc (incT Vsel x (fs.getD itr (.two 0 0 0)) itr iRes))
        A).getD s []).getD q 0 =
      (A.getD s []).getD q 0 +
        (l.map fun itr =>
          ((Vsel.getD s []).getD itr []).getD iRes 0 *
            peval (fs.getD itr (.two 0 0 0)) (coords x s q)).sum := by
  induction l generalizing A with
  | nil => simp
  | cons itr l ih =>
    rw [List.foldl_cons, List.map_cons, List.sum_cons,
      ih _ (shapeOf_addT _ _ _ hA),
      addT_entry _ _ _ hA s q hs hq,
      incT_entry Vsel x _ itr iRes s q hs hq]
    ring

theorem shapeOf_foldl_addT (Vsel x : List (List (List K)))
    (fs : List PBFun) (iRes : ℕ) (l : List ℕ) (A : List (List K))
    (hA : ShapeOf A (x.getD 0 [])) :
    ShapeOf
      (l.foldl
        (fun acc itr => addT acc (incT Vsel x (fs.getD itr (.two 0 0 0)) itr iRes))
        A) (x.getD 0 []) := by
  induction l generalizing A with
  | nil => exact hA
  | cons itr l ih => exact ih _ (shapeOf_addT _ _ _ hA)

theorem Utensor_shape (Vsel x : List (List (List K))) (fs : List PBFun)
    (N iRes : ℕ) : ShapeOf (Utensor Vsel x fs N iRes) (x.getD 0 []) :=
  shapeOf_foldl_addT Vsel x fs iRes (List.range N) _ (shapeOf_zerosT _)

theorem Utensor_entry (Vsel x : List (List (List K))) (fs : List PBFun)
    (N iRes s q : ℕ) (hs : s < (x.getD 0 []).length)
    (hq : q < ((x.getD 0 []).getD s []).length) :
    ((Utensor Vsel x fs N iRes).getD s []).getD q 0 =
      ((List.range N).map fun itr =>
        ((Vsel.getD s []).getD itr []).getD iRes 0 *
          peval (fs.getD itr (.two 0 0 0)) (coords x s q)).sum := by
  rw [Utensor, foldl_addT_entry Vsel x fs iRes _ _ (shapeOf_zerosT _) s q hs hq,
    zerosT_entry, zero_add]

theorem mkU_lookup (tb : List (List ℕ × List PBFun))
    (Vsel x : List (List (List K))) (N iRes dim k : ℕ) (diff : List ℕ) :
    (mkU tb Vsel x N iRes dim k).lookup diff =
      if diff ∈ axisTuples dim k then
        some (Utensor Vsel x ((tb.lookup diff).getD []) N iRes)
      else none :=
  lookup_map_pair _ (axisTuples dim k) diff

end TensorLemmas

theorem nil_mem_derivKeys (dim Ndiff : ℕ) :
    ([] : List ℕ) ∈ derivKeys dim Ndiff :=
  mem_derivKeys.mpr ⟨by simp, by simp⟩

theorem monoPairs_pos (n : ℕ) : 0 < (monoPairs n).length := by
  have h := length_monoPairs n
  have h2 : 0 < (n + 1) * (n + 2) := Nat.mul_pos (by omega) (by omega)
  omega

theorem Ntb_pbasis_init (maxdeg dim Ndiff : ℕ) :
    Ntb (pbasis_init maxdeg dim Ndiff) = (monoPairs maxdeg).length := by
  rw [Ntb, pbasis_lookup, if_pos (nil_mem_derivKeys dim Ndiff)]
  simp [pbasisFns]

/-! ## Claim C4: the falling-factorial constant vanishes exactly -/

/-- C4: whenever the monomial exponent along an axis is strictly smaller
than the number of derivatives requested along that axis, the
falling-factorial constant of `_pbasis_create` is exactly `0`, and the
generated derivative function is identically zero — never a spurious nonzero
constant paired with the floored exponent. -/
theorem pbasis_create_deficit_zero {K : Type} [Field K] (i j dx dy : ℕ)
    (x y : K) (h : i < dx ∨ j < dy) :
    (i < dx → fallingProd i dx = 0) ∧ (j < dy → fallingProd j dy = 0) ∧
      peval (pbasis_create i (some j) none dx dy 0) [x, y] = 0 := by
  refine ⟨fun h2 => fallingProd_eq_zero h2, fun h2 => fallingProd_eq_zero h2,
    ?_⟩
  have hc : fallingProd i dx * fallingProd j dy = 0 := by
    rcases h with h | h
    · rw [fallingProd_eq_zero h, zero_mul]
    · rw [fallingProd_eq_zero h, mul_zero]
  simp [pbasis_create, peval, hc]

/-- Witness for C4: `i = 0 < 2 = dx` gives the zero function at `(3, 5)`. -/
theorem pbasis_create_deficit_zero_witness :
    ((0 : ℕ) < 2 ∨ (1 : ℕ) < 0) ∧
      (((0 : ℕ) < 2 → fallingProd 0 2 = 0) ∧
        ((1 : ℕ) < 0 → fallingProd 1 0 = 0) ∧
        peval (pbasis_create 0 (some 1) none 2 0 0) [(3 : ℚ), 5] = 0) :=
  ⟨Or.inl (by decide),
    pbasis_create_deficit_zero 0 1 2 0 (3 : ℚ) 5 (Or.inl (by decide))⟩

/-! ## Claim C2: what the power basis generator actually produces -/

/-- C2 counterexample: in the table for `dim = 3`, the key `(2,)` (one pure
z-derivative) stores the *underived* constant monomial — a two-argument
function with value `1`, not the zero function the claim demands — and for
`dim = 1` the stored function takes two coordinates, so calling it with a
single coordinate is a `TypeError` rather than an evaluation. -/
theorem pbasis_init_no_z_derivative_counterexample :
    (pbasis_init 0 3 1).lookup [2] = some [PBFun.two 1 0 0] ∧
      peval (PBFun.two 1 0 0) [(5 : ℚ), 7] = 1 ∧ (1 : ℚ) ≠ 0 ∧
      (pbasis_init 0 1 1).lookup [] = some [PBFun.two 1 0 0] ∧
      PBFun.evalA (PBFun.two 1 0 0) [(2 : ℚ)] = none := by
  with_unfolding_all decide

/-- C2 (amended): for every `maxdeg`, `dim`, `Ndiff` and every key of the
generated table, the stored functions are exactly the two-coordinate
functions `c * x^(i-dx)⁺ * y^(j-dy)⁺` with
`c = fallingProd i dx * fallingProd j dy`, where `dx`, `dy` are the
occurrence counts of axes 0 and 1 in the key; occurrences of axis 2 are
ignored (no derivative along z is ever taken), so any two keys with equal
axis-0 and axis-1 counts store identical function lists, and for `dim = 1`
the functions still take two coordinates. -/
theorem pbasis_init_entries (maxdeg dim Ndiff : ℕ) (diff : List ℕ)
    (hmem : diff ∈ derivKeys dim Ndiff) :
    (pbasis_init maxdeg dim Ndiff).lookup diff =
      some ((monoPairs maxdeg).map fun ij =>
        PBFun.two
          (fallingProd ij.1 (diff.count 0) * fallingProd ij.2 (diff.count 1))
          (ij.1 - diff.count 0) (ij.2 - diff.count 1)) ∧
    ∀ diff', diff' ∈ derivKeys dim Ndiff →
      diff'.count 0 = diff.count 0 → diff'.count 1 = diff.count 1 →
      (pbasis_init maxdeg dim Ndiff).lookup diff' =
        (pbasis_init maxdeg dim Ndiff).lookup diff := by
  constructor
  · rw [pbasis_lookup, if_pos hmem]
    rfl
  · intro diff' hmem' h0 h1
    rw [pbasis_lookup, pbasis_lookup, if_pos hmem, if_pos hmem']
    unfold pbasisFns
    rw [h0, h1]

/-- Witness for the amended C2 at `maxdeg = 1`, `dim = 3`, key `(2,)`. -/
theorem pbasis_init_entries_witness :
    ([2] ∈ derivKeys 3 1) ∧
      ((pbasis_init 1 3 1).lookup [2] =
        some ((monoPairs 1).map fun ij =>
          PBFun.two
            (fallingProd ij.1 ([2].count 0) * fallingProd ij.2 ([2].count 1))
            (ij.1 - [2].count 0) (ij.2 - [2].count 1)) ∧
      ∀ diff', diff' ∈ derivKeys 3 1 →
        diff'.count 0 = [2].count 0 → diff'.count 1 = [2].count 1 →
        (pbasis_init 1 3 1).lookup diff' = (pbasis_init 1 3 1).lookup [2]) :=
  ⟨by decide, pbasis_init_entries 1 3 1 [2] (by decide)⟩

/-! ## Claim C5: function counts and the shared monomial ordering -/

/-- C5 counterexample: with `dim = 1`, `maxdeg = 1` every key stores 3
functions — the 2-D triangular count — not the `maxdeg + 1 = 2` monomials
claimed for one dimension. -/
theorem pbasis_count_dim1_counterexample :
    ((pbasis_init 1 1 2).lookup []).map List.length = some 3 ∧
      (3 : ℕ) ≠ 1 + 1 := by
  decide

/-- C5 (amended): every key of the generated table stores exactly
`(maxdeg+1)(maxdeg+2)/2` functions — the two-dimensional count, whatever
`dim` is — the count is identical across keys, and the `m`-th entry of every
key is generated from the `m`-th pair of the single shared monomial
enumeration. -/
theorem pbasis_count_and_order (maxdeg dim Ndiff : ℕ) (diff : List ℕ)
    (hmem : diff ∈ derivKeys dim Ndiff) :
    ∃ fs, (pbasis_init maxdeg dim Ndiff).lookup diff = some fs ∧
      fs.length = (maxdeg + 1) * (maxdeg + 2) / 2 ∧
      (∀ diff' fs',
        (pbasis_init maxdeg dim Ndiff).lookup diff' = some fs' →
        fs'.length = fs.length) ∧
      ∀ mI : ℕ, fs[mI]? = ((monoPairs maxdeg)[mI]?).map fun ij =>
        pbasis_create ij.1 (some ij.2) none (diff.count 0) (diff.count 1) 0 := by
  refine ⟨pbasisFns maxdeg diff, ?_, ?_, ?_, ?_⟩
  · rw [pbasis_lookup, if_pos hmem]
  · have h := length_pbasisFns maxdeg diff
    omega
  · intro diff' fs' h
    rw [pbasis_lookup] at h
    split at h
    · cases h
      rw [pbasisFns, pbasisFns, List.length_map, List.length_map]
    · cases h
  · intro mI
    rw [pbasisFns, List.getElem?_map]

/-- Witness for the amended C5 at `maxdeg = 1`, `dim = 1`, key `(0,)`. -/
theorem pbasis_count_and_order_witness :
    ([0] ∈ derivKeys 1 2) ∧
      ∃ fs, (pbasis_init 1 1 2).lookup [0] = some fs ∧
        fs.length = (1 + 1) * (1 + 2) / 2 ∧
        (∀ diff' fs', (pbasis_init 1 1 2).lookup diff' = some fs' →
          fs'.length = fs.length) ∧
        ∀ mI : ℕ, fs[mI]? = ((monoPairs 1)[mI]?).map fun ij =>
          pbasis_create ij.1 (some ij.2) none ([0].count 0) ([0].count 1) 0 :=
  ⟨by decide, pbasis_count_and_order 1 1 2 [0] (by decide)⟩

/-! ## Claim C7: non-triangular meshes fail fast -/

/-- C7: with an empty cache, requesting evaluation on any mesh whose
connectivity does not have exactly 3 rows (e.g. 4-node elements) raises the
NotImplementedError of `_eval_dofs` and never returns a result. -/
theorem gbasis_non_triangle_error {K : Type} [Field K] (gdof : GDof K)
    (sqrt : K → K) (F : List ℤ → List (List (List K))) (m : Mesh K) (i : ℤ)
    (tindOpt : Option (List ℤ)) (st : ElemState K)
    (hV : st.V = none) (hm : m.t.length ≠ 3) :
    gbasis gdof sqrt F m i tindOpt st =
      .error
        "NotImplementedError: The used mesh type not supported in ElementH2." := by
  simp only [gbasis, hV, eval_dofs, if_neg hm]

/-- Witness for C7: the 4-node mesh `quadMesh`. -/
theorem gbasis_non_triangle_error_witness :
    stFresh.V = none ∧ quadMesh.t.length ≠ 3 ∧
      gbasis gdofConst id Fzero quadMesh 0 none stFresh =
        .error
          "NotImplementedError: The used mesh type not supported in ElementH2." :=
  ⟨rfl, by decide,
    gbasis_non_triangle_error gdofConst id Fzero quadMesh 0 none stFresh rfl
      (by decide)⟩

/-! ## Claim C6: triangle geometry features -/

theorem featArr_entry {K : Type} [Field K] (f : ℕ → ℕ → ℕ → K)
    (tind : List ℕ) (itr a pos : ℕ) (hitr : itr < 3) (ha : a < 2)
    (hpos : pos < tind.length) :
    (((featArr f tind).getD itr []).getD a []).getD pos 0 =
      f itr a (tind.getD pos 0) := by
  rw [featArr, getD_map_range _ _ hitr, getD_map_range _ _ ha,
    getD_map_lt _ _ _ hpos, getD_lt _ _ hpos]

/-- C6: the feature arrays that `_eval_dofs` hands to `gdof` hold, per
element, the edge midpoints in the opposite-vertex order
`e0 = (v0+v1)/2`, `e1 = (v1+v2)/2`, `e2 = (v0+v2)/2`, and normals obtained
by rotating each edge direction vector 90 degrees (swap the two components,
negate one) and dividing by its Euclidean norm, so that whenever an
element's three edges have nonzero length every returned normal has unit
length. -/
theorem eval_dofs_geometry (m : Mesh ℝ) (tind : List ℕ) (pos : ℕ)
    (hpos : pos < tind.length)
    (hnd : ∀ itr, itr < 3 →
      rawn m itr 0 (tind.getD pos 0) ^ 2 +
        rawn m itr 1 (tind.getD pos 0) ^ 2 ≠ 0) :
    (∀ a, a < 2 → ∀ itr, itr < 3 →
      (((featArr (efeat m) tind).getD itr []).getD a []).getD pos 0 =
        efeat m itr a (tind.getD pos 0) ∧
      (((featArr (nfeat Real.sqrt m) tind).getD itr []).getD a []).getD pos 0
        = nfeat Real.sqrt m itr a (tind.getD pos 0)) ∧
    (∀ a,
      efeat m 0 a (tind.getD pos 0) =
        (vfeat m 0 a (tind.getD pos 0) + vfeat m 1 a (tind.getD pos 0)) / 2 ∧
      efeat m 1 a (tind.getD pos 0) =
        (vfeat m 1 a (tind.getD pos 0) + vfeat m 2 a (tind.getD pos 0)) / 2 ∧
      efeat m 2 a (tind.getD pos 0) =
        (vfeat m 0 a (tind.getD pos 0) + vfeat m 2 a (tind.getD pos 0)) / 2) ∧
    (∀ itr, itr < 3 →
      nfeat Real.sqrt m itr 0 (tind.getD pos 0) =
        rawn m itr 1 (tind.getD pos 0) /
          Real.sqrt (rawn m itr 1 (tind.getD pos 0) ^ 2 +
            (-(rawn m itr 0 (tind.getD pos 0))) ^ 2) ∧
      nfeat Real.sqrt m itr 1 (tind.getD pos 0) =
        -(rawn m itr 0 (tind.getD pos 0)) /
          Real.sqrt (rawn m itr 1 (tind.getD pos 0) ^ 2 +
            (-(rawn m itr 0 (tind.getD pos 0))) ^ 2) ∧
      nfeat Real.sqrt m itr 0 (tind.getD pos 0) ^ 2 +
        nfeat Real.sqrt m itr 1 (tind.getD pos 0) ^ 2 = 1) := by
  refine ⟨?_, ?_, ?_⟩
  · intro a ha itr hitr
    exact ⟨featArr_entry _ tind itr a pos hitr ha hpos,
      featArr_entry _ tind itr a pos hitr ha hpos⟩
  · intro a
    exact ⟨rfl, rfl, rfl⟩
  · intro itr hitr
    have hA : rotn m itr 0 (tind.getD pos 0) =
        rawn m itr 1 (tind.getD pos 0) := by
      rw [rotn, if_pos rfl]
    have hB : rotn m itr 1 (tind.getD pos 0) =
        -(rawn m itr 0 (tind.getD pos 0)) := by
      rw [rotn, if_neg (by omega)]
    refine ⟨by rw [nfeat, hA, hB], by rw [nfeat, hA, hB], ?_⟩
    set u := rawn m itr 1 (tind.getD pos 0) with hu
    set w := rawn m itr 0 (tind.getD pos 0) with hw
    have hS : u ^ 2 + (-w) ^ 2 ≠ 0 := by
      rw [neg_sq]
      intro h0
      exact (hnd itr hitr) (by linarith)
    have hS0 : (0 : ℝ) ≤ u ^ 2 + (-w) ^ 2 := by positivity
    have hsq : Real.sqrt (u ^ 2 + (-w) ^ 2) ^ 2 = u ^ 2 + (-w) ^ 2 :=
      Real.sq_sqrt hS0
    rw [nfeat, nfeat, hA, hB, div_pow, div_pow, div_add_div_same, hsq,
      div_self hS]

/-- Witness for C6: on the unit right triangle all three edges are nonzero
and (in particular) the first returned normal has unit length. -/
theorem eval_dofs_geometry_witness :
    ((0 : ℕ) < ([0] : List ℕ).length ∧
      (∀ itr, itr < 3 →
        rawn triMeshR itr 0 (([0] : List ℕ).getD 0 0) ^ 2 +
          rawn triMeshR itr 1 (([0] : List ℕ).getD 0 0) ^ 2 ≠ 0)) ∧
      nfeat Real.sqrt triMeshR 0 0 (([0] : List ℕ).getD 0 0) ^ 2 +
        nfeat Real.sqrt triMeshR 0 1 (([0] : List ℕ).getD 0 0) ^ 2 = 1 := by
  have hnd : ∀ itr, itr < 3 →
      rawn triMeshR itr 0 (([0] : List ℕ).getD 0 0) ^ 2 +
        rawn triMeshR itr 1 (([0] : List ℕ).getD 0 0) ^ 2 ≠ 0 := by
    intro itr hitr
    interval_cases itr <;> norm_num [rawn, vfeat, triMeshR]
  exact ⟨⟨by norm_num, hnd⟩,
    ((eval_dofs_geometry triMeshR [0] 0 (by norm_num) hnd).2.2 0
      (by norm_num)).2.2⟩

/-! ## Inversion lemmas for `gbasisCore` and `gbasis` -/

theorem gbasisCore_ok_inv {K : Type} [Field K]
    (F : List ℤ → List (List (List K))) (tind : List ℤ) (i : ℤ)
    (tbOpt : Option (List (List ℕ × List PBFun))) (W : List (List (List K)))
    (dim derivs : ℕ) (res : List (DiscreteField K))
    (h : gbasisCore F tind i tbOpt W dim derivs = .ok res) :
    ∃ Vsel tb iRes, npGets W tind = some Vsel ∧ tbOpt = some tb ∧
      2 ≤ derivs ∧ (F tind).length ≠ 0 ∧
      res = [mkDF tb Vsel (F tind) (Ntb tb) iRes dim derivs] ∧
      (0 < Ntb tb → npIdx (Ntb tb) i = some iRes ∧ (F tind).length = 2) := by
  rw [gbasisCore] at h
  split at h
  · cases h
  next Vsel hsel =>
    split at h
    · cases h
    next hx =>
      cases tbOpt with
      | none => cases h
      | some tb =>
        dsimp only at h
        by_cases hN : 0 < Ntb tb
        · rw [if_pos hN] at h
          cases hni : npIdx (Ntb tb) i with
          | none => rw [hni] at h; cases h
          | some iRes =>
            rw [hni] at h
            dsimp only at h
            by_cases hx2 : (F tind).length ≠ 2
            · rw [if_pos hx2] at h; cases h
            · rw [if_neg hx2] at h
              by_cases hd : derivs < 2
              · rw [if_pos hd] at h; cases h
              · rw [if_neg hd] at h
                cases h
                exact ⟨Vsel, tb, iRes, hsel, rfl, by omega, hx, rfl,
                  fun _ => ⟨hni, by omega⟩⟩
        · rw [if_neg hN] at h
          by_cases hd : derivs < 2
          · rw [if_pos hd] at h; cases h
          · rw [if_neg hd] at h
            cases h
            exact ⟨Vsel, tb, (npIdx (Ntb tb) i).getD 0, hsel, rfl, by omega,
              hx, rfl, fun hpos => absurd hpos hN⟩

theorem npIdx_of_nonneg {N : ℕ} {i : ℤ} (h0 : 0 ≤ i) (h1 : i < (N : ℤ)) :
    npIdx N i = some i.toNat := by
  rw [npIdx, if_pos ⟨h0, h1⟩]

theorem eval_dofs_ok_inv {K : Type} [Field K]
    (tb : List (List ℕ × List PBFun)) (gdof : GDof K) (sqrt : K → K)
    (m : Mesh K) (tindOpt : Option (List ℕ)) (Vd : List (List (List K)))
    (h : eval_dofs tb gdof sqrt m tindOpt = .ok Vd) :
    m.t.length = 3 ∧
      Vd = (List.range (tindOpt.getD (List.range m.nElems)).length).map
        fun el => (List.range (Ntb tb)).map fun jtr =>
          (List.range (Ntb tb)).map fun itr =>
            vandermonde tb gdof sqrt m (tindOpt.getD (List.range m.nElems))
              el jtr itr := by
  rw [eval_dofs] at h
  split at h
  next h3 =>
    cases h
    exact ⟨h3, rfl⟩
  next => cases h

theorem gbasis_ok_inv {K : Type} [Field K] (gdof : GDof K) (sqrt : K → K)
    (F : List ℤ → List (List (List K))) (m : Mesh K) (i : ℤ)
    (tindOpt : Option (List ℤ)) (st : ElemState K)
    (res : List (DiscreteField K)) (st' : ElemState K)
    (h : gbasis gdof sqrt F m i tindOpt st = .ok (res, st')) :
    st'.maxdeg = st.maxdeg ∧ st'.dim = st.dim ∧
      st'.derivatives = st.derivatives ∧
      ∃ W tb, st'.V = some W ∧ st'.pbasis = some tb ∧
        gbasisCore F (tindOpt.getD ((List.range m.nElems).map Int.ofNat)) i
          (some tb) W st.dim st.derivatives = .ok res ∧
        ((st.V = some W ∧ st' = st) ∨
         (st.V = none ∧ tb = pbasis_init st.maxdeg st.dim st.derivatives ∧
           ∃ Vd, eval_dofs tb gdof sqrt m none = .ok Vd ∧ W = Vd.map invL)) := by
  rw [gbasis] at h
  cases hV : st.V with
  | none =>
    rw [hV] at h
    dsimp only at h
    cases hed : eval_dofs (pbasis_init st.maxdeg st.dim st.derivatives) gdof
        sqrt m none with
    | error e => rw [hed] at h; cases h
    | ok Vd =>
      rw [hed] at h
      dsimp only at h
      cases hc : gbasisCore F
          (tindOpt.getD ((List.range m.nElems).map Int.ofNat)) i
          (some (pbasis_init st.maxdeg st.dim st.derivatives)) (Vd.map invL)
          st.dim st.derivatives with
      | error e => rw [hc] at h; cases h
      | ok res0 =>
        rw [hc] at h
        simp only [Except.map, Except.ok.injEq, Prod.mk.injEq] at h
        obtain ⟨rfl, rfl⟩ := h
        refine ⟨rfl, rfl, rfl, Vd.map invL,
          pbasis_init st.maxdeg st.dim st.derivatives, rfl, rfl, hc,
          Or.inr ⟨rfl, rfl, Vd, hed, rfl⟩⟩
  | some W =>
    rw [hV] at h
    dsimp only at h
    cases hc : gbasisCore F
        (tindOpt.getD ((List.range m.nElems).map Int.ofNat)) i st.pbasis W
        st.dim st.derivatives with
    | error e => rw [hc] at h; cases h
    | ok res0 =>
      rw [hc] at h
      simp only [Except.map, Except.ok.injEq, Prod.mk.injEq] at h
      obtain ⟨rfl, rfl⟩ := h
      obtain ⟨Vsel, tb, iRes, hsel, htb, hrest⟩ :=
        gbasisCore_ok_inv _ _ _ _ _ _ _ _ hc
      exact ⟨rfl, rfl, rfl, W, tb, hV, htb, htb ▸ hc,
        Or.inl ⟨rfl, rfl⟩⟩

/-! ## Claim C8: evaluation is pure and the cache is filled once -/

/-- C8: if a `gbasis` call succeeds with result `res` and post-state `st'`,
then calling again with identical arguments returns the identical result and
leaves the state untouched; moreover the second call does not depend on the
DOF functional or on the square root used for the geometry (so neither
`_pbasis_init`, `_eval_dofs` nor the inversion is re-triggered), the
configuration attributes are never mutated, and a call that starts with a
filled cache does not mutate the state at all. -/
theorem gbasis_idempotent {K : Type} [Field K] (gdof gdof2 : GDof K)
    (sqrt sqrt2 : K → K) (F : List ℤ → List (List (List K))) (m : Mesh K)
    (i : ℤ) (tindOpt : Option (List ℤ)) (st : ElemState K)
    (res : List (DiscreteField K)) (st' : ElemState K)
    (h : gbasis gdof sqrt F m i tindOpt st = .ok (res, st')) :
    gbasis gdof2 sqrt2 F m i tindOpt st' = .ok (res, st') ∧
      st'.maxdeg = st.maxdeg ∧ st'.dim = st.dim ∧
      st'.derivatives = st.derivatives ∧
      (st.V.isSome → st' = st) := by
  obtain ⟨hmax, hdim, hder, W, tb, hV', hpb', hcore, hbranch⟩ :=
    gbasis_ok_inv gdof sqrt F m i tindOpt st res st' h
  refine ⟨?_, hmax, hdim, hder, ?_⟩
  · rw [gbasis, hV']
    dsimp only
    rw [hpb', hdim, hder, hcore]
    rfl
  · intro hsome
    rcases hbranch with ⟨_, hst⟩ | ⟨hnone, _⟩
    · exact hst
    · rw [hnone] at hsome
      cases hsome

/-- Witness for C8: the second call on `triMesh` returns the identical
result and state. -/
theorem gbasis_idempotent_witness :
    gbasis gdofConst id Fzero triMesh 0 none stFresh =
        .ok ([dfConst], stWarm) ∧
      gbasis gdofConst id Fzero triMesh 0 none stWarm =
        .ok ([dfConst], stWarm) :=
  ⟨by with_unfolding_all decide,
    (gbasis_idempotent gdofConst gdofConst id id Fzero triMesh 0 none stFresh
      [dfConst] stWarm (by with_unfolding_all decide)).1⟩

/-! ## Claim C1: the first call builds and caches the global inverse -/

/-- C1: on the first call (no cached inverse), `gbasis` stores the power
basis table for this element's `(maxdeg, dim, derivatives)` configuration,
builds the Vandermonde matrix over *all* mesh elements (independently of the
requested subset `tind`), with entry `V[e][j][i]` the value of DOF functional
`j` (`gdof` at DOF index `j`) applied to power basis function `i` over the
geometric features of element `e`, and caches the slice-by-slice inverse of
that matrix. -/
theorem gbasis_first_call_builds_cache {K : Type} [Field K] (gdof : GDof K)
    (sqrt : K → K) (F : List ℤ → List (List (List K))) (m : Mesh K) (i : ℤ)
    (tindOpt : Option (List ℤ)) (st : ElemState K)
    (res : List (DiscreteField K)) (st' : ElemState K)
    (hV : st.V = none)
    (h : gbasis gdof sqrt F m i tindOpt st = .ok (res, st')) :
    st'.pbasis = some (pbasis_init st.maxdeg st.dim st.derivatives) ∧
      ∃ Vd,
        eval_dofs (pbasis_init st.maxdeg st.dim st.derivatives) gdof sqrt m
          none = .ok Vd ∧
        st'.V = some (Vd.map invL) ∧
        Vd.length = m.nElems ∧
        ∀ el jtr itr, el < m.nElems →
          jtr < Ntb (pbasis_init st.maxdeg st.dim st.derivatives) →
          itr < Ntb (pbasis_init st.maxdeg st.dim st.derivatives) →
          ((Vd.getD el []).getD jtr []).getD itr 0 =
            (gdof
              (Urow (pbasis_init st.maxdeg st.dim st.derivatives) itr)
              (featArr (vfeat m) (List.range m.nElems))
              (featArr (efeat m) (List.range m.nElems))
              (featArr (nfeat sqrt m) (List.range m.nElems)) jtr).getD el 0 := by
  obtain ⟨hmax, hdim, hder, W, tb, hV', hpb', hcore, hbranch⟩ :=
    gbasis_ok_inv gdof sqrt F m i tindOpt st res st' h
  rcases hbranch with ⟨hsome, _⟩ | ⟨-, htb, Vd, hed, hW⟩
  · rw [hV] at hsome; cases hsome
  · subst htb
    subst hW
    obtain ⟨h3, hVd⟩ := eval_dofs_ok_inv _ gdof sqrt m none Vd hed
    have hlen : Vd.length = m.nElems := by
      rw [hVd]
      simp
    refine ⟨hpb', Vd, hed, hV', hlen, ?_⟩
    intro el jtr itr hel hjtr hitr
    have hel2 : el < (List.range m.nElems).length := by
      simpa using hel
    rw [hVd, getD_map_range _ _ (by simpa using hel), getD_map_range _ _ hjtr,
      getD_map_range _ _ hitr]
    rfl

/-- Witness for C1 on `triMesh`: the cold call caches the power basis table
and the inverted one-element Vandermonde matrix. -/
theorem gbasis_first_call_builds_cache_witness :
    (stFresh.V = none ∧
      gbasis gdofConst id Fzero triMesh 0 none stFresh =
        .ok ([dfConst], stWarm)) ∧
      stWarm.pbasis = some (pbasis_init 0 2 2) :=
  ⟨⟨rfl, by with_unfolding_all decide⟩,
    (gbasis_first_call_builds_cache gdofConst id Fzero triMesh 0 none stFresh
      [dfConst] stWarm rfl (by with_unfolding_all decide)).1⟩

/-! ## Claim C10: permutation invariance of derivative keys -/

theorem mem_axisTuples_perm {dim k : ℕ} {d1 d2 : List ℕ}
    (hp : d1.Perm d2) :
    d1 ∈ axisTuples dim k ↔ d2 ∈ axisTuples dim k := by
  rw [mem_axisTuples, mem_axisTuples, hp.length_eq]
  constructor <;> rintro ⟨h1, h2⟩ <;> refine ⟨h1, fun x hx => h2 x ?_⟩
  · exact hp.mem_iff.mpr hx
  · exact hp.mem_iff.mp hx

theorem pbasis_lookup_perm (maxdeg dim Ndiff : ℕ) {d1 d2 : List ℕ}
    (hp : d1.Perm d2) :
    (pbasis_init maxdeg dim Ndiff).lookup d1 =
      (pbasis_init maxdeg dim Ndiff).lookup d2 := by
  rw [pbasis_lookup, pbasis_lookup]
  have hc0 : d1.count 0 = d2.count 0 := hp.count_eq 0
  have hc1 : d1.count 1 = d2.count 1 := hp.count_eq 1
  have hmem : d1 ∈ derivKeys dim Ndiff ↔ d2 ∈ derivKeys dim Ndiff := by
    rw [mem_derivKeys, mem_derivKeys, hp.length_eq]
    constructor <;> rintro ⟨h1, h2⟩ <;> refine ⟨h1, fun x hx => h2 x ?_⟩
    · exact hp.mem_iff.mpr hx
    · exact hp.mem_iff.mp hx
  by_cases h : d1 ∈ derivKeys dim Ndiff
  · rw [if_pos h, if_pos (hmem.mp h)]
    unfold pbasisFns
    rw [hc0, hc1]
  · rw [if_neg h, if_neg fun h2 => h (hmem.mpr h2)]

/-- C10: each derivative function table depends only on the multiset of axes
of its key, so permuted keys store identical lists; consequently the Hessian
returned by a first `gbasis` call is symmetric, and every higher-order
tensor in `hod` is invariant under permutation of its derivative axes. -/
theorem pbasis_perm_hess_symm {K : Type} [Field K] :
    (∀ maxdeg dim Ndiff (d1 d2 : List ℕ), d1.Perm d2 →
      (pbasis_init maxdeg dim Ndiff).lookup d1 =
        (pbasis_init maxdeg dim Ndiff).lookup d2) ∧
    ∀ (gdof : GDof K) (sqrt : K → K) (F : List ℤ → List (List (List K)))
      (m : Mesh K) (i : ℤ) (tindOpt : Option (List ℤ)) (st : ElemState K)
      (res : List (DiscreteField K)) (st' : ElemState K),
      st.V = none →
      gbasis gdof sqrt F m i tindOpt st = .ok (res, st') →
      ∀ df, res = [df] →
        (∀ a b : ℕ, df.hess.lookup [a, b] = df.hess.lookup [b, a]) ∧
        ∀ kk : ℕ, ∀ d1 d2 : List ℕ, d1.Perm d2 →
          (df.hod.getD kk []).lookup d1 = (df.hod.getD kk []).lookup d2 := by
  refine ⟨fun maxdeg dim Ndiff d1 d2 hp => pbasis_lookup_perm _ _ _ hp, ?_⟩
  intro gdof sqrt F m i tindOpt st res st' hV h df hres
  obtain ⟨hmax, hdim, hder, W, tb, hV', hpb', hcore, hbranch⟩ :=
    gbasis_ok_inv gdof sqrt F m i tindOpt st res st' h
  rcases hbranch with ⟨hsome, _⟩ | ⟨-, htb, -⟩
  · rw [hV] at hsome; cases hsome
  obtain ⟨Vsel, tb2, iRes, hsel, htb2, hder2, hx0, hres2, hcond⟩ :=
    gbasisCore_ok_inv _ _ _ _ _ _ _ _ hcore
  cases htb2
  rw [hres2] at hres
  cases hres
  have tablePerm : ∀ d1 d2 : List ℕ, d1.Perm d2 →
      tb.lookup d1 = tb.lookup d2 := by
    intro d1 d2 hp
    rw [htb]
    exact pbasis_lookup_perm _ _ _ hp
  constructor
  · intro a b
    show (mkU tb Vsel (F _) (Ntb tb) iRes st.dim 2).lookup [a, b] =
      (mkU tb Vsel (F _) (Ntb tb) iRes st.dim 2).lookup [b, a]
    rw [mkU_lookup, mkU_lookup]
    have hp : ([a, b] : List ℕ).Perm [b, a] := List.Perm.swap b a []
    have hmem : [a, b] ∈ axisTuples st.dim 2 ↔ [b, a] ∈ axisTuples st.dim 2 :=
      mem_axisTuples_perm hp
    by_cases hin : [a, b] ∈ axisTuples st.dim 2
    · rw [if_pos hin, if_pos (hmem.mp hin), tablePerm _ _ hp]
    · rw [if_neg hin, if_neg fun h2 => hin (hmem.mpr h2)]
  · intro kk d1 d2 hp
    show ((mkDF tb Vsel (F _) (Ntb tb) iRes st.dim
        st.derivatives).hod.getD kk []).lookup d1 = _
    rw [mkDF]
    by_cases hkk : kk < st.derivatives - 2
    · dsimp only
      rw [getD_map_range _ _ (by simpa using hkk), mkU_lookup, mkU_lookup]
      have hmem : d1 ∈ axisTuples st.dim (kk + 3) ↔
          d2 ∈ axisTuples st.dim (kk + 3) := mem_axisTuples_perm hp
      by_cases hin : d1 ∈ axisTuples st.dim (kk + 3)
      · rw [if_pos hin, if_pos (hmem.mp hin), tablePerm _ _ hp]
      · rw [if_neg hin, if_neg fun h2 => hin (hmem.mpr h2)]
    · dsimp only
      rw [getD_map_range_ge _ _ (by simpa using hkk)]
      rfl

/-- Witness for C10: permuted keys of a concrete table coincide and the
Hessian of the concrete first call is symmetric at (0, 1). -/
theorem pbasis_perm_hess_symm_witness :
    (([0, 1] : List ℕ).Perm [1, 0] ∧ stFresh.V = none ∧
      gbasis gdofConst id Fzero triMesh 0 none stFresh =
        .ok ([dfConst], stWarm)) ∧
      (pbasis_init 0 2 2).lookup [0, 1] = (pbasis_init 0 2 2).lookup [1, 0] ∧
      dfConst.hess.lookup [0, 1] = dfConst.hess.lookup [1, 0] :=
  ⟨⟨by decide, rfl, by with_unfolding_all decide⟩,
    (pbasis_perm_hess_symm (K := ℚ)).1 0 2 2 [0, 1] [1, 0] (by decide),
    ((pbasis_perm_hess_symm (K := ℚ)).2 gdofConst id Fzero triMesh 0 none
      stFresh [dfConst] stWarm rfl (by with_unfolding_all decide) dfConst
      rfl).1 0 1⟩

/-! ## Claim C9: out-of-range basis and element indices -/

/-- C9 counterexample: neither kind of negative in-range index fails.
Requesting basis function index `-1` (with `N = 1`) succeeds — numpy
negative indexing silently wraps it to the same result as index `0` — and
requesting the element subset `tind = [-1]` (with one mesh element)
likewise succeeds and returns the result of `tind = [0]` instead of
raising an error. -/
theorem gbasis_negative_index_counterexample :
    (gbasis gdofConst id Fzero triMesh (-1) none stWarm =
        gbasis gdofConst id Fzero triMesh 0 none stWarm ∧
      (gbasis gdofConst id Fzero triMesh (-1) none stWarm).toOption.isSome =
        true) ∧
    (gbasis gdofConst id Fzero triMesh 0 (some [-1]) stWarm =
        gbasis gdofConst id Fzero triMesh 0 (some [0]) stWarm ∧
      (gbasis gdofConst id Fzero triMesh 0
        (some [-1]) stWarm).toOption.isSome = true) := by
  with_unfolding_all decide

/-- Unfolding of `gbasisCore` once the `_pbasis` dict is present. -/
theorem gbasisCore_some {K : Type} [Field K]
    (F : List ℤ → List (List (List K))) (tind : List ℤ) (i : ℤ)
    (tb : List (List ℕ × List PBFun)) (W : List (List (List K)))
    (dim derivs : ℕ) :
    gbasisCore F tind i (some tb) W dim derivs =
      match npGets W tind with
      | none => .error "IndexError: fancy index tind out of bounds"
      | some Vsel =>
        if (F tind).length = 0 then
          .error "IndexError: x[0] on empty coordinate array"
        else if 0 < Ntb tb then
          match npIdx (Ntb tb) i with
          | none => .error "IndexError: basis index i out of bounds"
          | some iRes =>
            if (F tind).length ≠ 2 then
              .error "TypeError: wrong number of arguments in pbasis call"
            else if derivs < 2 then
              .error "ValueError: negative dimensions are not allowed"
            else .ok [mkDF tb Vsel (F tind) (Ntb tb) iRes dim derivs]
        else if derivs < 2 then
          .error "ValueError: negative dimensions are not allowed"
        else
          .ok [mkDF tb Vsel (F tind) (Ntb tb) ((npIdx (Ntb tb) i).getD 0)
            dim derivs] := by
  rw [gbasisCore]

/-- Fancy indexing selects the same rows when negative in-range indices are
replaced by their wrapped nonnegative forms. -/
theorem npGets_wrap {α : Type} (W : List α) (n : ℕ) (hW : W.length = n)
    (tl : List ℤ)
    (hrange : ∀ t ∈ tl, -(n : ℤ) ≤ t ∧ t < (n : ℤ)) :
    npGets W tl =
      npGets W (tl.map fun t => if t < 0 then t + (n : ℤ) else t) := by
  induction tl with
  | nil => rfl
  | cons t rest ih =>
    have hr := hrange t (List.mem_cons_self t rest)
    have hget : npGet W t = npGet W (if t < 0 then t + (n : ℤ) else t) := by
      by_cases hneg : t < 0
      · have hidx : npIdx W.length t = npIdx W.length (t + (n : ℤ)) := by
          rw [hW, npIdx, npIdx, if_neg (by omega),
            if_pos ⟨by omega, by omega⟩, if_pos ⟨by omega, by omega⟩]
        rw [if_pos hneg, npGet, npGet, hidx]
      · rw [if_neg hneg]
    rw [List.map_cons, npGets, npGets, hget,
      ih fun u hu => hrange u (List.mem_cons_of_mem _ hu)]

/-- C9 (amended): with a warm cache, a basis index `i ≥ N` or `i < -N`
raises `IndexError` on the column selection `V[:, itr, i]` (whenever the
mapped coordinate array is nonempty), and an element index
`t ≥ numElements` or `t < -numElements` anywhere in `tind` raises
`IndexError` on the fancy indexing `self.V[tind]`; but negative indices in
`[-N, 0)` (resp. `[-numElements, 0)`) do NOT fail — numpy silently wraps
them pythonically: `gbasis` at `i ∈ [-N, 0)` returns exactly the result at
`i + N`, and a `tind` of in-range entries returns exactly the result of
the wrapped nonnegative `tind` whenever the opaque mapping collaborator
treats the two index forms alike. -/
theorem gbasis_index_out_of_bounds {K : Type} [Field K] (gdof : GDof K)
    (sqrt : K → K) (F : List ℤ → List (List (List K))) (m : Mesh K)
    (st : ElemState K) (tb : List (List ℕ × List PBFun))
    (W : List (List (List K)))
    (hpb : st.pbasis = some tb) (hV : st.V = some W)
    (hW : W.length = m.nElems) (hN : 0 < Ntb tb) :
    (∀ i : ℤ, (i < -(Ntb tb : ℤ) ∨ (Ntb tb : ℤ) ≤ i) →
      (F ((List.range m.nElems).map Int.ofNat)).length ≠ 0 →
      gbasis gdof sqrt F m i none st =
        .error "IndexError: basis index i out of bounds") ∧
    (∀ tl : List ℤ, ∀ t ∈ tl, (t < -(m.nElems : ℤ) ∨ (m.nElems : ℤ) ≤ t) →
      ∀ i : ℤ, gbasis gdof sqrt F m i (some tl) st =
        .error "IndexError: fancy index tind out of bounds") ∧
    (∀ i : ℤ, -(Ntb tb : ℤ) ≤ i → i < 0 →
      gbasis gdof sqrt F m i none st =
        gbasis gdof sqrt F m (i + (Ntb tb : ℤ)) none st) ∧
    (∀ i : ℤ, ∀ tl : List ℤ,
      (∀ t ∈ tl, -(m.nElems : ℤ) ≤ t ∧ t < (m.nElems : ℤ)) →
      F tl = F (tl.map fun t => if t < 0 then t + (m.nElems : ℤ) else t) →
      gbasis gdof sqrt F m i (some tl) st =
        gbasis gdof sqrt F m i
          (some (tl.map fun t => if t < 0 then t + (m.nElems : ℤ) else t))
          st) := by
  refine ⟨?_, ?_, ?_, ?_⟩
  · intro i hi hx
    have hni : npIdx (Ntb tb) i = none := by
      rw [npIdx, if_neg (by omega), if_neg (by omega)]
    have hvalid : ∀ t ∈ (List.range m.nElems).map Int.ofNat,
        npIdx W.length t ≠ none := by
      intro t ht
      simp only [List.mem_map, List.mem_range] at ht
      obtain ⟨k, hk, rfl⟩ := ht
      have hcast : Int.ofNat k = (k : ℤ) := rfl
      rw [hcast, hW, npIdx, if_pos ⟨by omega, by omega⟩]
      simp
    obtain ⟨Vsel, hsel⟩ := npGets_all_valid W _ hvalid
    rw [gbasis, hV]
    dsimp only [Option.getD]
    rw [hpb, gbasisCore_some]
    simp only [hsel]
    rw [if_neg hx, if_pos hN, hni]
    rfl
  · intro tl t ht hoob i
    have hni : npIdx W.length t = none := by
      rw [hW, npIdx, if_neg (by omega), if_neg (by omega)]
    have hgets : npGets W tl = none := npGets_mem_invalid W tl t ht hni
    rw [gbasis, hV]
    dsimp only [Option.getD]
    rw [hpb, gbasisCore_some, hgets]
    rfl
  · intro i h1 h2
    have heq : npIdx (Ntb tb) i = npIdx (Ntb tb) (i + (Ntb tb : ℤ)) := by
      rw [npIdx, npIdx, if_neg (by omega), if_pos ⟨by omega, by omega⟩,
        if_pos ⟨by omega, by omega⟩]
    rw [gbasis, gbasis, hV]
    dsimp only [Option.getD]
    rw [hpb, gbasisCore_some, gbasisCore_some, heq]
  · intro i tl hrange hF
    have hsel : npGets W tl =
        npGets W (tl.map fun t => if t < 0 then t + (m.nElems : ℤ) else t) :=
      npGets_wrap W m.nElems hW tl hrange
    rw [gbasis, gbasis, hV]
    dsimp only [Option.getD]
    rw [hpb, gbasisCore_some, gbasisCore_some, hsel, hF]

/-- Witness for the amended C9: on the concrete warm state, index `5 ≥ N`
raises exactly the basis-index `IndexError`. -/
theorem gbasis_index_out_of_bounds_witness :
    (stWarm.pbasis = some (pbasis_init 0 2 2) ∧
      stWarm.V = some [[[1]]] ∧
      ([[[(1 : ℚ)]]] : List (List (List ℚ))).length = triMesh.nElems ∧
      0 < Ntb (pbasis_init 0 2 2) ∧
      (Fzero ((List.range triMesh.nElems).map Int.ofNat)).length ≠ 0) ∧
      gbasis gdofConst id Fzero triMesh 5 none stWarm =
        .error "IndexError: basis index i out of bounds" :=
  ⟨⟨rfl, rfl, by decide, by decide, by decide⟩,
    (gbasis_index_out_of_bounds gdofConst id Fzero triMesh stWarm
      (pbasis_init 0 2 2) [[[1]]] rfl rfl (by decide) (by decide)).1 5
      (Or.inr (by decide)) (by decide)⟩

/-! ## Claim C3: the evaluation formula of `gbasis` -/

/-- C3: with a cached inverse, a valid basis index `0 ≤ i < N` and a
successful call, `gbasis` returns a single-element sequence containing one
bundle; its order-k tensors (k = 0 `value`, k = 1 `grad`, k = 2 `hess`)
carry, for every derivative key over the `dim` axes and every entry of the
`x[0]` point shape, the sum over the `N` power basis functions `mI` of
`V_inv[s, mI, i] * pbasis[key][mI](x)` evaluated at the mapped physical
coordinates `x = F(X, tind)`; orders `3 .. derivatives` are stored in
`hod`, a sequence of length `derivatives - 2`. -/
theorem gbasis_eval_formula {K : Type} [Field K] (gdof : GDof K)
    (sqrt : K → K) (F : List ℤ → List (List (List K))) (m : Mesh K) (i : ℤ)
    (tindOpt : Option (List ℤ)) (st : ElemState K)
    (res : List (DiscreteField K)) (st' : ElemState K)
    (tb : List (List ℕ × List PBFun)) (W : List (List (List K)))
    (hpb : st.pbasis = some tb) (hV : st.V = some W)
    (h0 : 0 ≤ i) (hiN : i < (Ntb tb : ℤ))
    (h : gbasis gdof sqrt F m i tindOpt st = .ok (res, st')) :
    ∃ tind x Vsel df,
      tind = tindOpt.getD ((List.range m.nElems).map Int.ofNat) ∧
      x = F tind ∧
      npGets W tind = some Vsel ∧
      res = [df] ∧
      (df.value.length = (x.getD 0 []).length ∧
        ∀ s, s < (x.getD 0 []).length →
          (df.value.getD s []).length = ((x.getD 0 []).getD s []).length ∧
          ∀ q, q < ((x.getD 0 []).getD s []).length →
            (df.value.getD s []).getD q 0 =
              ((List.range (Ntb tb)).map fun mI =>
                ((Vsel.getD s []).getD mI []).getD i.toNat 0 *
                  peval (((tb.lookup ([] : List ℕ)).getD []).getD mI
                    (.two 0 0 0)) (coords x s q)).sum) ∧
      (∀ a, a < st.dim →
        ∃ T, df.grad.lookup [a] = some T ∧
          ∀ s, s < (x.getD 0 []).length →
          ∀ q, q < ((x.getD 0 []).getD s []).length →
            (T.getD s []).getD q 0 =
              ((List.range (Ntb tb)).map fun mI =>
                ((Vsel.getD s []).getD mI []).getD i.toNat 0 *
                  peval (((tb.lookup [a]).getD []).getD mI (.two 0 0 0))
                    (coords x s q)).sum) ∧
      (∀ a b, a < st.dim → b < st.dim →
        ∃ T, df.hess.lookup [a, b] = some T ∧
          ∀ s, s < (x.getD 0 []).length →
          ∀ q, q < ((x.getD 0 []).getD s []).length →
            (T.getD s []).getD q 0 =
              ((List.range (Ntb tb)).map fun mI =>
                ((Vsel.getD s []).getD mI []).getD i.toNat 0 *
                  peval (((tb.lookup [a, b]).getD []).getD mI (.two 0 0 0))
                    (coords x s q)).sum) ∧
      df.hod.length = st.derivatives - 2 ∧
      (∀ kk, kk < st.derivatives - 2 →
        ∀ diff, diff ∈ axisTuples st.dim (kk + 3) →
          ∃ T, (df.hod.getD kk []).lookup diff = some T ∧
            ∀ s, s < (x.getD 0 []).length →
            ∀ q, q < ((x.getD 0 []).getD s []).length →
              (T.getD s []).getD q 0 =
                ((List.range (Ntb tb)).map fun mI =>
                  ((Vsel.getD s []).getD mI []).getD i.toNat 0 *
                    peval (((tb.lookup diff).getD []).getD mI (.two 0 0 0))
                      (coords x s q)).sum) := by
  obtain ⟨hmax, hdim, hder, W2, tb2, hV2, hpb2, hcore, hbranch⟩ :=
    gbasis_ok_inv gdof sqrt F m i tindOpt st res st' h
  rcases hbranch with ⟨hsome, hsteq⟩ | ⟨hnone, -⟩
  swap
  · rw [hV] at hnone
    cases hnone
  rw [hV] at hsome
  injection hsome with hW2
  subst hW2
  rw [hsteq, hpb] at hpb2
  injection hpb2 with htb2
  subst htb2
  obtain ⟨Vsel, tb3, iRes, hsel, htb3, hder2, hx0, hres2, hcond⟩ :=
    gbasisCore_ok_inv _ _ _ _ _ _ _ _ hcore
  injection htb3 with htb3
  subst htb3
  have hN : 0 < Ntb tb := by omega
  obtain ⟨hniRes, hx2⟩ := hcond hN
  rw [npIdx_of_nonneg h0 hiN] at hniRes
  injection hniRes with hiRes
  subst hiRes
  refine ⟨tindOpt.getD ((List.range m.nElems).map Int.ofNat), _, Vsel,
    mkDF tb Vsel (F _) (Ntb tb) i.toNat st.dim st.derivatives,
    rfl, rfl, hsel, hres2, ⟨?_, ?_⟩, ?_, ?_, ?_, ?_⟩
  · exact (Utensor_shape _ _ _ _ _).1
  · intro s hs
    refine ⟨(Utensor_shape _ _ _ _ _).2 s, fun q hq => ?_⟩
    exact Utensor_entry _ _ _ _ _ s q hs hq
  · intro a ha
    refine ⟨_, ?_, fun s hs q hq => Utensor_entry _ _ _ _ _ s q hs hq⟩
    show (mkU tb Vsel _ (Ntb tb) i.toNat st.dim 1).lookup [a] = _
    rw [mkU_lookup, if_pos]
    rw [mem_axisTuples]
    exact ⟨rfl, by simpa using ha⟩
  · intro a b ha hb
    refine ⟨_, ?_, fun s hs q hq => Utensor_entry _ _ _ _ _ s q hs hq⟩
    show (mkU tb Vsel _ (Ntb tb) i.toNat st.dim 2).lookup [a, b] = _
    rw [mkU_lookup, if_pos]
    rw [mem_axisTuples]
    refine ⟨rfl, ?_⟩
    intro z hz
    rcases List.mem_cons.mp hz with rfl | hz
    · exact ha
    · rcases List.mem_cons.mp hz with rfl | hz
      · exact hb
      · cases hz
  · show ((List.range (st.derivatives - 2)).map _).length = _
    simp
  · intro kk hkk diff hdiff
    show ∃ T,
      (((List.range (st.derivatives - 2)).map fun kk =>
        mkU tb Vsel _ (Ntb tb) i.toNat st.dim (kk + 3)).getD kk []).lookup
          diff = some T ∧ _
    rw [getD_map_range _ _ hkk, mkU_lookup, if_pos hdiff]
    exact ⟨_, rfl, fun s hs q hq => Utensor_entry _ _ _ _ _ s q hs hq⟩

/-- Witness for C3: the concrete warm-cache call at basis index 0. -/
theorem gbasis_eval_formula_witness :
    ((0 : ℤ) ≤ 0 ∧ (0 : ℤ) < (Ntb (pbasis_init 0 2 2) : ℤ) ∧
      gbasis gdofConst id Fzero triMesh 0 none stWarm =
        .ok ([dfConst], stWarm)) ∧
    ∃ tind x Vsel df,
      tind = (none : Option (List ℤ)).getD
        ((List.range triMesh.nElems).map Int.ofNat) ∧
      x = Fzero tind ∧
      npGets ([[[(1 : ℚ)]]] : List (List (List ℚ))) tind = some Vsel ∧
      [dfConst] = [df] ∧
      (df.value.length = (x.getD 0 []).length ∧
        ∀ s, s < (x.getD 0 []).length →
          (df.value.getD s []).length = ((x.getD 0 []).getD s []).length ∧
          ∀ q, q < ((x.getD 0 []).getD s []).length →
            (df.value.getD s []).getD q 0 =
              ((List.range (Ntb (pbasis_init 0 2 2))).map fun mI =>
                ((Vsel.getD s []).getD mI []).getD (0 : ℤ).toNat 0 *
                  peval ((((pbasis_init 0 2 2).lookup ([] : List ℕ)).getD
                    []).getD mI (.two 0 0 0)) (coords x s q)).sum) ∧
      (∀ a, a < stWarm.dim →
        ∃ T, df.grad.lookup [a] = some T ∧
          ∀ s, s < (x.getD 0 []).length →
          ∀ q, q < ((x.getD 0 []).getD s []).length →
            (T.getD s []).getD q 0 =
              ((List.range (Ntb (pbasis_init 0 2 2))).map fun mI =>
                ((Vsel.getD s []).getD mI []).getD (0 : ℤ).toNat 0 *
                  peval ((((pbasis_init 0 2 2).lookup [a]).getD []).getD mI
                    (.two 0 0 0)) (coords x s q)).sum) ∧
      (∀ a b, a < stWarm.dim → b < stWarm.dim →
        ∃ T, df.hess.lookup [a, b] = some T ∧
          ∀ s, s < (x.getD 0 []).length →
          ∀ q, q < ((x.getD 0 []).getD s []).length →
            (T.getD s []).getD q 0 =
              ((List.range (Ntb (pbasis_init 0 2 2))).map fun mI =>
                ((Vsel.getD s []).getD mI []).getD (0 : ℤ).toNat 0 *
                  peval ((((pbasis_init 0 2 2).lookup [a, b]).getD []).getD
                    mI (.two 0 0 0)) (coords x s q)).sum) ∧
      df.hod.length = stWarm.derivatives - 2 ∧
      (∀ kk, kk < stWarm.derivatives - 2 →
        ∀ diff, diff ∈ axisTuples stWarm.dim (kk + 3) →
          ∃ T, (df.hod.getD kk []).lookup diff = some T ∧
            ∀ s, s < (x.getD 0 []).length →
            ∀ q, q < ((x.getD 0 []).getD s []).length →
              (T.getD s []).getD q 0 =
                ((List.range (Ntb (pbasis_init 0 2 2))).map fun mI =>
                  ((Vsel.getD s []).getD mI []).getD (0 : ℤ).toNat 0 *
                    peval ((((pbasis_init 0 2 2).lookup diff).getD []).getD
                      mI (.two 0 0 0)) (coords x s q)).sum) :=
  ⟨⟨by decide, by decide, by with_unfolding_all decide⟩,
    gbasis_eval_formula gdofConst id Fzero triMesh 0 none stWarm [dfConst]
      stWarm (pbasis_init 0 2 2) [[[1]]] rfl rfl (by decide) (by decide)
      (by with_unfolding_all decide)⟩

end Skfem
